import Mathlib

/-!
Shallow embedding of the bitarray crate (src/lib.rs): a fixed-capacity bit
array packed into a single unsigned integer, parameterized by the bit width
of its base type (u8, u16, u32, u64, u128).  Machine integers of width w are
modelled as natural numbers; well-formed values are below 2 ^ w.
-/

/-- Widths of the five sealed Base implementations: u8, u16, u32, u64, u128. -/
def supportedWidths : List Nat := [8, 16, 32, 64, 128]

/-- Base::one_at_index: the source computes 1 << index on the w-bit unsigned
type.  For index < max_len this is exactly the value 2 ^ index; Rust masks the
shift amount by the bit width (each supported w is a power of two), which the
model renders as reducing the index modulo w. -/
def one_at_index (w index : Nat) : Nat := 1 <<< (index % w)

/-- BitArray wraps exactly one Base value (a w-bit unsigned integer). -/
structure BitArray (w : Nat) where
  val : Nat
deriving DecidableEq

namespace BitArray

/-- Derived Default: the base defaults to zero, so every bit is false. -/
def default (w : Nat) : BitArray w := ⟨0⟩

/-- BitArray::all_one wraps Base::max, the value with every bit set, 2 ^ w - 1. -/
def all_one (w : Nat) : BitArray w := ⟨2 ^ w - 1⟩

/-- BitArray::get: bitwise AND of the data with the single-bit mask for the
index, then compare against zero. -/
def get {w : Nat} (a : BitArray w) (index : Nat) : Bool :=
  decide (a.val &&& one_at_index w index > 0)

/-- BitArray::set: OR with the single-bit mask when setting true; AND with the
bitwise complement of the mask (on a w-bit base, complement is XOR with the
all-ones value 2 ^ w - 1) when setting false. -/
def set {w : Nat} (a : BitArray w) (index : Nat) (bit : Bool) : BitArray w :=
  if bit then ⟨a.val ||| one_at_index w index⟩
  else ⟨a.val &&& ((2 ^ w - 1) ^^^ one_at_index w index)⟩

/-- BitArray::new: start from default, take at most max_len = w elements of
the input, enumerate them, and set the bit at each yielded position. -/
def new (w : Nat) (l : List Bool) : BitArray w :=
  ((l.take w).enum).foldl (fun arr p => arr.set p.1 p.2) (BitArray.default w)

end BitArray

/-- Items produced by BitArrayIter::next, collected into a list.  The counter
test against max_len = w is the loop exit taken from the source; the fuel
argument only bounds the recursion and is passed as w - counter by the callers,
so it never runs out before the counter reaches w. -/
def collectIter {w : Nat} (a : BitArray w) : Nat → Nat → List Bool
  | _, 0 => []
  | counter, fuel + 1 =>
    if counter = w then [] else a.get counter :: collectIter a (counter + 1) fuel

/-- Everything yielded by BitArray::iter, whose BitArrayIter starts at counter 0. -/
def BitArray.iterList {w : Nat} (a : BitArray w) : List Bool := collectIter a 0 w

/-- Items produced by Ones::next, collected into a list.  In the source the
Ones cursor and its inner BitArrayIter advance in lockstep from 0, so the
inner iterator returns Some (get counter) exactly when counter < w, and the
yielded index equals the counter before the increment. -/
def collectOnes {w : Nat} (a : BitArray w) : Nat → Nat → List Nat
  | _, 0 => []
  | counter, fuel + 1 =>
    if counter = w then []
    else if a.get counter then counter :: collectOnes a (counter + 1) fuel
    else collectOnes a (counter + 1) fuel

/-- Everything yielded by BitArray::ones. -/
def BitArray.onesList {w : Nat} (a : BitArray w) : List Nat := collectOnes a 0 w

/-- Items produced by Zeroes::next, collected into a list; symmetric to
collectOnes with the bit compared against false. -/
def collectZeroes {w : Nat} (a : BitArray w) : Nat → Nat → List Nat
  | _, 0 => []
  | counter, fuel + 1 =>
    if counter = w then []
    else if a.get counter = false then counter :: collectZeroes a (counter + 1) fuel
    else collectZeroes a (counter + 1) fuel

/-- Everything yielded by BitArray::zeroes. -/
def BitArray.zeroesList {w : Nat} (a : BitArray w) : List Nat := collectZeroes a 0 w

/-- Binary digits of a natural number, most significant digit first, empty for
zero.  The fuel argument makes the division recursion structural; any fuel
above the number itself is enough. -/
def binDigitsAux : Nat → Nat → List Char
  | 0, _ => []
  | fuel + 1, n =>
    if n = 0 then []
    else binDigitsAux fuel (n / 2) ++ [if n % 2 = 1 then '1' else '0']

/-- Binary digit string of a natural number, most significant digit first. -/
def binDigits (n : Nat) : List Char := binDigitsAux (n + 1) n

/-- Display for BitArray delegates to the binary formatter of the base value,
which prints a lone 0 digit for zero and otherwise the binary digits with no
leading zeroes and no padding to a fixed width. -/
def BitArray.display {w : Nat} (a : BitArray w) : String :=
  if a.val = 0 then "0" else String.mk (binDigits a.val)

/-- Numeric value of a most-significant-first list of binary digit characters;
used to state what the rendered string denotes. -/
def binVal (l : List Char) : Nat :=
  l.foldl (fun acc c => 2 * acc + (if c = '1' then 1 else 0)) 0

/-- Re-set every index in the list to true on the given array; used to state
the ones round-trip property. -/
def setAllTrue {w : Nat} (a : BitArray w) (l : List Nat) : BitArray w :=
  l.foldl (fun arr i => arr.set i true) a

/-- Two arrays are equal exactly when their wrapped base values are equal
(the derived structural equality). -/
theorem BitArray.val_inj {w : Nat} {a b : BitArray w} : a = b ↔ a.val = b.val := by
  constructor
  · intro h; rw [h]
  · intro h; cases a; cases b; cases h; rfl

/-- For an in-range index the single-bit mask is exactly 2 ^ index. -/
theorem one_at_index_eq_pow {w index : Nat} (h : index < w) :
    one_at_index w index = 2 ^ index := by
  unfold one_at_index
  rw [Nat.mod_eq_of_lt h, Nat.shiftLeft_eq, one_mul]

/-- ANDing with a power of two leaves something positive exactly when the
corresponding bit is set. -/
theorem and_two_pow_pos_iff (x k : Nat) : 0 < x &&& 2 ^ k ↔ x.testBit k = true := by
  constructor
  · intro h
    by_contra hb
    have hb2 : x.testBit k = false := Bool.eq_false_iff.mpr hb
    have hz : x &&& 2 ^ k = 0 := by
      apply Nat.eq_of_testBit_eq
      intro j
      rw [Nat.testBit_and, Nat.zero_testBit, Nat.testBit_two_pow]
      by_cases hj : k = j
      · cases hj; rw [hb2]; rfl
      · simp [hj]
    omega
  · intro h
    have hk : (x &&& 2 ^ k).testBit k = true := by
      rw [Nat.testBit_and, h, Nat.testBit_two_pow]; simp
    have hge := Nat.testBit_implies_ge hk
    have hpos : 0 < 2 ^ k := Nat.two_pow_pos k
    omega

/-- The get operation reads the bit at the index reduced modulo the width. -/
theorem BitArray.get_eq_testBit {w : Nat} (a : BitArray w) (index : Nat) :
    a.get index = a.val.testBit (index % w) := by
  unfold BitArray.get one_at_index
  rw [Nat.shiftLeft_eq, one_mul]
  by_cases h : a.val.testBit (index % w) = true
  · rw [h]
    exact decide_eq_true ((and_two_pow_pos_iff a.val (index % w)).mpr h)
  · have hf : a.val.testBit (index % w) = false := Bool.eq_false_iff.mpr h
    rw [hf]
    apply decide_eq_false
    intro hpos
    exact h ((and_two_pow_pos_iff a.val (index % w)).mp hpos)

/-- Every bit of the default array is false. -/
theorem BitArray.get_default {w : Nat} (index : Nat) :
    (BitArray.default w).get index = false := by
  rw [BitArray.get_eq_testBit]
  exact Nat.zero_testBit _

/-- Effect of set on the bits of the wrapped value, for in-range indices. -/
theorem BitArray.testBit_set {w : Nat} (a : BitArray w) {i : Nat} (hi : i < w)
    (b : Bool) {j : Nat} (hj : j < w) :
    ((a.set i b).val).testBit j = if j = i then b else a.val.testBit j := by
  unfold BitArray.set
  cases b
  · simp only [Bool.false_eq_true, if_false]
    rw [one_at_index_eq_pow hi, Nat.testBit_and, Nat.testBit_xor,
      Nat.testBit_two_pow_sub_one, Nat.testBit_two_pow]
    by_cases h : j = i
    · cases h; simp [hj]
    · have : ¬ i = j := fun hij => h hij.symm
      simp [h, this, hj]
  · simp only [if_true]
    rw [one_at_index_eq_pow hi, Nat.testBit_or, Nat.testBit_two_pow]
    by_cases h : j = i
    · cases h; simp
    · have : ¬ i = j := fun hij => h hij.symm
      simp [h, this]

/-- Set changes the addressed bit and frames every other in-range bit. -/
theorem BitArray.get_set {w : Nat} (a : BitArray w) {i j : Nat} (hi : i < w)
    (hj : j < w) (b : Bool) :
    (a.set i b).get j = if j = i then b else a.get j := by
  rw [BitArray.get_eq_testBit, Nat.mod_eq_of_lt hj, BitArray.testBit_set a hi b hj,
    BitArray.get_eq_testBit, Nat.mod_eq_of_lt hj]

/-- Set keeps the wrapped value inside the w-bit range. -/
theorem BitArray.set_val_lt {w : Nat} (a : BitArray w) (ha : a.val < 2 ^ w)
    {i : Nat} (hi : i < w) (b : Bool) : (a.set i b).val < 2 ^ w := by
  unfold BitArray.set
  cases b
  · simp only [Bool.false_eq_true, if_false]
    exact Nat.lt_of_le_of_lt Nat.and_le_left ha
  · simp only [if_true]
    exact Nat.or_lt_two_pow ha
      (one_at_index_eq_pow hi ▸ Nat.pow_lt_pow_right Nat.one_lt_two hi)

/-- Folding set over an enumerated list writes each element at its position
and frames every index outside the written range. -/
theorem get_foldl_enumFrom {w : Nat} (l : List Bool) (n : Nat) (a : BitArray w)
    (hle : n + l.length ≤ w) {j : Nat} (hj : j < w) :
    ((List.enumFrom n l).foldl (fun arr p => arr.set p.1 p.2) a).get j =
      if n ≤ j ∧ j < n + l.length then l.getD (j - n) false else a.get j := by
  induction l generalizing n a with
  | nil =>
    simp only [List.enumFrom_nil, List.foldl_nil, List.length_nil]
    rw [if_neg (by omega)]
  | cons b t ih =>
    simp only [List.enumFrom_cons, List.foldl_cons, List.length_cons]
    simp only [List.length_cons] at hle
    have hn : n < w := by omega
    rw [ih (n + 1) (a.set n b) (by omega)]
    by_cases h1 : n + 1 ≤ j ∧ j < n + 1 + t.length
    · rw [if_pos h1, if_pos (by omega)]
      have hjn : j - n = (j - (n + 1)) + 1 := by omega
      rw [hjn, List.getD_cons_succ]
    · rw [if_neg h1]
      by_cases h2 : j = n
      · subst h2
        rw [if_pos (by omega), Nat.sub_self, List.getD_cons_zero,
          BitArray.get_set a hn hj b, if_pos rfl]
      · rw [if_neg (by omega), BitArray.get_set a hn hj b, if_neg h2]

/-- Indices produced by enumFrom stay below the start plus the length. -/
theorem enumFrom_fst_lt {α : Type _} (l : List α) (n : Nat) :
    ∀ p ∈ List.enumFrom n l, p.1 < n + l.length := by
  induction l generalizing n with
  | nil => intro p hp; simp at hp
  | cons b t ih =>
    intro p hp
    simp only [List.enumFrom_cons, List.mem_cons] at hp
    rcases hp with h | h
    · subst h; simp only [List.length_cons]; omega
    · have := ih (n + 1) p h
      simp only [List.length_cons]
      omega

/-- Folding set over pairs with in-range indices keeps the value in range. -/
theorem foldl_set_val_lt {w : Nat} (l : List (Nat × Bool)) (a : BitArray w)
    (ha : a.val < 2 ^ w) (hidx : ∀ p ∈ l, p.1 < w) :
    ((l.foldl (fun arr p => arr.set p.1 p.2) a)).val < 2 ^ w := by
  induction l generalizing a with
  | nil => exact ha
  | cons q t ih =>
    simp only [List.foldl_cons]
    exact ih (a.set q.1 q.2)
      (BitArray.set_val_lt a ha (hidx q (List.mem_cons_self q t)) q.2)
      (fun p hp => hidx p (List.mem_cons_of_mem q hp))

/-- A constructed array always wraps a value below 2 ^ w. -/
theorem BitArray.new_val_lt {w : Nat} (l : List Bool) : (BitArray.new w l).val < 2 ^ w := by
  unfold BitArray.new
  apply foldl_set_val_lt
  · show (0 : Nat) < 2 ^ w
    exact Nat.two_pow_pos w
  · intro p hp
    have henum : (l.take w).enum = List.enumFrom 0 (l.take w) := rfl
    rw [henum] at hp
    have := enumFrom_fst_lt (l.take w) 0 p hp
    simp only [Nat.zero_add, List.length_take] at this
    omega

/-- The constructor packs each input element at its own index, missing
elements defaulting to false. -/
theorem BitArray.get_new {w : Nat} (l : List Bool) {j : Nat} (hj : j < w) :
    (BitArray.new w l).get j = l.getD j false := by
  unfold BitArray.new
  have henum : (l.take w).enum = List.enumFrom 0 (l.take w) := rfl
  rw [henum, get_foldl_enumFrom (l.take w) 0 (BitArray.default w)
    (by simp only [Nat.zero_add, List.length_take]; omega) hj]
  simp only [Nat.zero_add, Nat.zero_le, true_and, Nat.sub_zero]
  by_cases h : j < (l.take w).length
  · rw [if_pos h, List.getD_eq_getElem?_getD, List.getD_eq_getElem?_getD,
      List.getElem?_take_of_lt hj]
  · rw [if_neg h, BitArray.get_default]
    have hlen : l.length ≤ j := by simp only [List.length_take] at h; omega
    rw [List.getD_eq_getElem?_getD, List.getElem?_eq_none hlen]
    rfl

/-- Bits at or above the width of an in-range value are false. -/
theorem BitArray.val_testBit_high {w : Nat} (a : BitArray w) (ha : a.val < 2 ^ w)
    {j : Nat} (hj : w ≤ j) : a.val.testBit j = false :=
  Nat.testBit_lt_two_pow (Nat.lt_of_lt_of_le ha (Nat.pow_le_pow_right (by omega) hj))

/-- Bit-level description of the constructed array over all bit positions. -/
theorem BitArray.testBit_new {w : Nat} (l : List Bool) (j : Nat) :
    (BitArray.new w l).val.testBit j = (decide (j < w) && l.getD j false) := by
  by_cases hj : j < w
  · have h := BitArray.get_new l hj
    rw [BitArray.get_eq_testBit, Nat.mod_eq_of_lt hj] at h
    rw [h, decide_eq_true hj, Bool.true_and]
  · rw [BitArray.val_testBit_high _ (BitArray.new_val_lt l) (by omega),
      decide_eq_false hj, Bool.false_and]

/-- Collected full-iterator output from any cursor position maps get over the
remaining index range. -/
theorem collectIter_eq {w : Nat} (a : BitArray w) (fuel : Nat) :
    ∀ c, c + fuel = w → collectIter a c fuel = (List.range' c fuel).map a.get := by
  induction fuel with
  | zero => intro c h; rfl
  | succ f ih =>
    intro c h
    simp only [collectIter]
    rw [if_neg (by omega), ih (c + 1) (by omega), List.range'_succ, List.map_cons]

/-- The full iterator yields get at every index from 0 to w - 1 in order. -/
theorem BitArray.iterList_eq_map {w : Nat} (a : BitArray w) :
    a.iterList = (List.range w).map a.get := by
  unfold BitArray.iterList
  rw [collectIter_eq a w 0 (by omega), List.range_eq_range']

/-- Collected ones output from any cursor position filters the remaining index
range by get. -/
theorem collectOnes_eq {w : Nat} (a : BitArray w) (fuel : Nat) :
    ∀ c, c + fuel = w →
      collectOnes a c fuel = (List.range' c fuel).filter (fun i => a.get i) := by
  induction fuel with
  | zero => intro c h; rfl
  | succ f ih =>
    intro c h
    simp only [collectOnes]
    rw [if_neg (by omega), ih (c + 1) (by omega), List.range'_succ, List.filter_cons]

/-- The ones iterator yields exactly the in-range indices whose bit is true. -/
theorem BitArray.onesList_eq_filter {w : Nat} (a : BitArray w) :
    a.onesList = (List.range w).filter (fun i => a.get i) := by
  unfold BitArray.onesList
  rw [collectOnes_eq a w 0 (by omega), List.range_eq_range']

/-- Collected zeroes output from any cursor position filters the remaining
index range by the negation of get. -/
theorem collectZeroes_eq {w : Nat} (a : BitArray w) (fuel : Nat) :
    ∀ c, c + fuel = w →
      collectZeroes a c fuel = (List.range' c fuel).filter (fun i => !a.get i) := by
  induction fuel with
  | zero => intro c h; rfl
  | succ f ih =>
    intro c h
    simp only [collectZeroes]
    rw [if_neg (by omega), ih (c + 1) (by omega), List.range'_succ, List.filter_cons]
    by_cases hg : a.get c = true <;> simp [hg]

/-- The zeroes iterator yields exactly the in-range indices whose bit is false. -/
theorem BitArray.zeroesList_eq_filter {w : Nat} (a : BitArray w) :
    a.zeroesList = (List.range w).filter (fun i => !a.get i) := by
  unfold BitArray.zeroesList
  rw [collectZeroes_eq a w 0 (by omega), List.range_eq_range']

/-- A bit of the array obtained by re-setting a list of in-range indices to
true is set exactly when it was set before or its index is in the list. -/
theorem testBit_setAllTrue {w : Nat} (l : List Nat) (a : BitArray w)
    (hl : ∀ i ∈ l, i < w) (j : Nat) :
    ((setAllTrue a l).val.testBit j = true) ↔ (a.val.testBit j = true ∨ j ∈ l) := by
  induction l generalizing a with
  | nil => simp [setAllTrue]
  | cons i t ih =>
    have hi : i < w := hl i (List.mem_cons_self i t)
    have step : (a.set i true).val.testBit j = (a.val.testBit j || decide (j = i)) := by
      show (a.val ||| one_at_index w i).testBit j = _
      rw [one_at_index_eq_pow hi, Nat.testBit_or, Nat.testBit_two_pow]
      by_cases h : j = i
      · subst h; rfl
      · rw [decide_eq_false h, decide_eq_false (fun he => h he.symm)]
    have hfold : setAllTrue a (i :: t) = setAllTrue (a.set i true) t := rfl
    rw [hfold, ih (a.set i true) (fun x hx => hl x (List.mem_cons_of_mem i hx)), step]
    simp only [List.mem_cons, Bool.or_eq_true, decide_eq_true_eq]
    tauto

/-- Membership in the ones output characterizes the true bits. -/
theorem BitArray.mem_onesList {w : Nat} (a : BitArray w) (i : Nat) :
    i ∈ a.onesList ↔ (i < w ∧ a.get i = true) := by
  rw [BitArray.onesList_eq_filter]
  simp [List.mem_filter, List.mem_range, and_comm]

/-- Membership in the zeroes output characterizes the false bits. -/
theorem BitArray.mem_zeroesList {w : Nat} (a : BitArray w) (i : Nat) :
    i ∈ a.zeroesList ↔ (i < w ∧ a.get i = false) := by
  rw [BitArray.zeroesList_eq_filter]
  simp [List.mem_filter, List.mem_range, and_comm]

/-- Re-setting the indices yielded by the ones iterator on a default array of
the same width reconstructs the original array. -/
theorem BitArray.ones_reconstruct {w : Nat} (a : BitArray w) (ha : a.val < 2 ^ w) :
    setAllTrue (BitArray.default w) a.onesList = a := by
  rw [BitArray.val_inj]
  apply Nat.eq_of_testBit_eq
  intro j
  have hl : ∀ i ∈ a.onesList, i < w := fun i hi => ((a.mem_onesList i).mp hi).1
  rw [Bool.eq_iff_iff, testBit_setAllTrue _ _ hl j]
  constructor
  · rintro (h0 | hmem)
    · rw [show (BitArray.default w).val = 0 from rfl, Nat.zero_testBit] at h0
      exact absurd h0 (by simp)
    · obtain ⟨hjw, hget⟩ := (a.mem_onesList j).mp hmem
      rw [BitArray.get_eq_testBit, Nat.mod_eq_of_lt hjw] at hget
      exact hget
  · intro h
    by_cases hj : j < w
    · right
      exact (a.mem_onesList j).mpr
        ⟨hj, by rw [BitArray.get_eq_testBit, Nat.mod_eq_of_lt hj]; exact h⟩
    · rw [BitArray.val_testBit_high a ha (by omega)] at h
      exact absurd h (by simp)

/-- Running the binary formatter on zero gives no digits, whatever the fuel. -/
theorem binDigitsAux_zero (fuel : Nat) : binDigitsAux fuel 0 = [] := by
  cases fuel <;> rfl

/-- Appending one digit multiplies the denoted value by two and adds the digit. -/
theorem binVal_append_digit (l : List Char) (c : Char) :
    binVal (l ++ [c]) = 2 * binVal l + (if c = '1' then 1 else 0) := by
  unfold binVal
  rw [List.foldl_append]
  rfl

/-- With enough fuel, the rendered digits denote the formatted number. -/
theorem binVal_binDigitsAux : ∀ fuel n, n < fuel → binVal (binDigitsAux fuel n) = n := by
  intro fuel
  induction fuel with
  | zero => intro n h; omega
  | succ f ih =>
    intro n h
    by_cases h0 : n = 0
    · subst h0; rfl
    · simp only [binDigitsAux, if_neg h0]
      rw [binVal_append_digit, ih (n / 2) (by omega)]
      by_cases h2 : n % 2 = 1
      · rw [if_pos h2, if_pos rfl]
        omega
      · rw [if_neg h2, if_neg (by decide : ¬ ('0' : Char) = '1')]
        omega

/-- With enough fuel, the leading rendered digit of a nonzero number is 1. -/
theorem binDigitsAux_head : ∀ fuel n, n < fuel → n ≠ 0 →
    (binDigitsAux fuel n).head? = some '1' := by
  intro fuel
  induction fuel with
  | zero => intro n h; omega
  | succ f ih =>
    intro n h h0
    simp only [binDigitsAux, if_neg h0]
    by_cases h2 : n / 2 = 0
    · have h1 : n = 1 := by omega
      subst h1
      simp [binDigitsAux_zero]
    · rw [List.head?_append, ih (n / 2) (by omega) h2]
      rfl

/-- The binary digit string of a number denotes the number itself. -/
theorem binVal_binDigits (n : Nat) : binVal (binDigits n) = n :=
  binVal_binDigitsAux (n + 1) n (Nat.lt_succ_self n)

/-- The binary digit string of a nonzero number starts with the digit 1, so it
carries no forced leading zeroes. -/
theorem binDigits_head {n : Nat} (h : n ≠ 0) : (binDigits n).head? = some '1' :=
  binDigitsAux_head (n + 1) n (Nat.lt_succ_self n) h

/-- Every character emitted by the binary formatter is a binary digit. -/
theorem binDigitsAux_mem : ∀ fuel n c, c ∈ binDigitsAux fuel n → c = '0' ∨ c = '1' := by
  intro fuel
  induction fuel with
  | zero => intro n c hc; simp [binDigitsAux] at hc
  | succ f ih =>
    intro n c hc
    by_cases h0 : n = 0
    · subst h0; simp [binDigitsAux] at hc
    · simp only [binDigitsAux, if_neg h0, List.mem_append, List.mem_singleton] at hc
      rcases hc with hc | hc
      · exact ih (n / 2) c hc
      · subst hc
        by_cases h2 : n % 2 = 1
        · rw [if_pos h2]; exact Or.inr rfl
        · rw [if_neg h2]; exact Or.inl rfl

/-- The rendering denotes exactly the wrapped value, uses only binary digits,
and a nonzero value is printed without leading zeroes. -/
theorem BitArray.display_spec {w : Nat} (a : BitArray w) :
    binVal a.display.data = a.val ∧
      (∀ c, c ∈ a.display.data → c = '0' ∨ c = '1') ∧
      (a.val ≠ 0 → a.display.data.head? = some '1') := by
  unfold BitArray.display
  by_cases h : a.val = 0
  · rw [if_pos h]
    refine ⟨by rw [h]; rfl, ?_, fun h2 => absurd h h2⟩
    intro c hc
    simp only [show ("0" : String).data = ['0'] from rfl,
      List.mem_singleton] at hc
    exact Or.inl hc
  · rw [if_neg h]
    exact ⟨binVal_binDigits a.val, fun c hc => binDigitsAux_mem _ _ c hc,
      fun _ => binDigits_head h⟩

/-- C1: for every supported width w and boolean sequence S of length at most
w, the full iterator of new S yields S first (element k at index k) and false
for every remaining index, i.e. S zero-padded to length w. -/
theorem spec_c1 (w : Nat) (_hw : w ∈ supportedWidths) (S : List Bool)
    (hS : S.length ≤ w) :
    (BitArray.new w S).iterList = S ++ List.replicate (w - S.length) false := by
  apply List.ext_getElem?
  intro k
  rw [BitArray.iterList_eq_map]
  by_cases hk : k < w
  · rw [List.getElem?_map, List.getElem?_range hk,
      show Option.map (BitArray.new w S).get (some k)
        = some ((BitArray.new w S).get k) from rfl,
      BitArray.get_new S hk]
    by_cases hks : k < S.length
    · rw [List.getElem?_append_left hks, List.getElem?_eq_getElem hks,
        List.getD_eq_getElem?_getD, List.getElem?_eq_getElem hks]
      rfl
    · rw [List.getElem?_append_right (by omega), List.getElem?_replicate,
        if_pos (by omega),
        List.getD_eq_getElem?_getD, List.getElem?_eq_none (by omega)]
      rfl
  · rw [List.getElem?_eq_none (by simp only [List.length_map, List.length_range]; omega),
      List.getElem?_eq_none
        (by simp only [List.length_append, List.length_replicate]; omega)]

/-- C2: the constructor reads at most w elements, so new S equals new of the
first w elements of S; in particular, at width 8, new of 129 true values
equals the all-one array. -/
theorem spec_c2 (w : Nat) (_hw : w ∈ supportedWidths) (S : List Bool) :
    BitArray.new w S = BitArray.new w (S.take w) ∧
      BitArray.new 8 (List.replicate 129 true) = BitArray.all_one 8 := by
  constructor
  · unfold BitArray.new
    rw [List.take_take, Nat.min_self]
  · decide

/-- C3: setting bit i to b makes get i return b and leaves every other
in-range bit unchanged. -/
theorem spec_c3 (w : Nat) (_hw : w ∈ supportedWidths) (x : BitArray w) (i : Nat)
    (hi : i < w) (b : Bool) :
    (x.set i b).get i = b ∧
      ∀ j, j < w → j ≠ i → (x.set i b).get j = x.get j := by
  constructor
  · rw [BitArray.get_set x hi hi b, if_pos rfl]
  · intro j hj hne
    rw [BitArray.get_set x hi hj b, if_neg hne]

/-- C4: the ones and zeroes iterators yield exactly the in-range indices of
true and false bits respectively, so their outputs are disjoint, together
exhaust the index range below w, are each strictly ascending, and re-setting
the ones indices on a default array reconstructs the original array. -/
theorem spec_c4 (w : Nat) (_hw : w ∈ supportedWidths) (a : BitArray w)
    (ha : a.val < 2 ^ w) :
    (∀ i, i ∈ a.onesList ↔ (i < w ∧ a.get i = true)) ∧
    (∀ i, i ∈ a.zeroesList ↔ (i < w ∧ a.get i = false)) ∧
    (∀ i, ¬ (i ∈ a.onesList ∧ i ∈ a.zeroesList)) ∧
    (∀ i, i < w → i ∈ a.onesList ∨ i ∈ a.zeroesList) ∧
    List.Sorted (fun x y => x < y) a.onesList ∧
    List.Sorted (fun x y => x < y) a.zeroesList ∧
    setAllTrue (BitArray.default w) a.onesList = a := by
  refine ⟨a.mem_onesList, a.mem_zeroesList, ?_, ?_, ?_, ?_,
    BitArray.ones_reconstruct a ha⟩
  · rintro i ⟨h1, h2⟩
    have e1 := ((a.mem_onesList i).mp h1).2
    have e2 := ((a.mem_zeroesList i).mp h2).2
    rw [e1] at e2
    exact absurd e2 (by simp)
  · intro i hi
    by_cases hg : a.get i = true
    · exact Or.inl ((a.mem_onesList i).mpr ⟨hi, hg⟩)
    · exact Or.inr ((a.mem_zeroesList i).mpr ⟨hi, Bool.eq_false_iff.mpr hg⟩)
  · rw [BitArray.onesList_eq_filter]
    exact List.Pairwise.filter _ (List.pairwise_lt_range w)
  · rw [BitArray.zeroesList_eq_filter]
    exact List.Pairwise.filter _ (List.pairwise_lt_range w)

/-- C5: the full iterator yields exactly w booleans, in index order, the item
at position k being get k. -/
theorem spec_c5 (w : Nat) (_hw : w ∈ supportedWidths) (a : BitArray w) :
    a.iterList.length = w ∧ ∀ k, k < w → a.iterList[k]? = some (a.get k) := by
  rw [BitArray.iterList_eq_map]
  constructor
  · rw [List.length_map, List.length_range]
  · intro k hk
    rw [List.getElem?_map, List.getElem?_range hk]
    rfl

/-- C6: for an in-range index the mask builder suffers no overflow: it returns
exactly 2 ^ i, a value below 2 ^ w whose only set bit is bit i, with the least
significant bit as index 0. -/
theorem spec_c6 (w : Nat) (_hw : w ∈ supportedWidths) (i : Nat) (hi : i < w) :
    one_at_index w i = 2 ^ i ∧ one_at_index w i < 2 ^ w ∧
      ∀ j, (one_at_index w i).testBit j = decide (j = i) := by
  refine ⟨one_at_index_eq_pow hi, ?_, ?_⟩
  · rw [one_at_index_eq_pow hi]
    exact Nat.pow_lt_pow_right Nat.one_lt_two hi
  · intro j
    rw [one_at_index_eq_pow hi, Nat.testBit_two_pow]
    by_cases h : i = j
    · subst h; rfl
    · rw [decide_eq_false h, decide_eq_false (fun he => h he.symm)]

/-- C7: every in-range bit of all_one is true, and new of any input whose
first w elements are all true equals all_one. -/
theorem spec_c7 (w : Nat) (_hw : w ∈ supportedWidths) :
    (∀ i, i < w → (BitArray.all_one w).get i = true) ∧
    ∀ S : List Bool, (∀ j, j < w → S.getD j false = true) →
      BitArray.new w S = BitArray.all_one w := by
  constructor
  · intro i hi
    rw [BitArray.get_eq_testBit, Nat.mod_eq_of_lt hi]
    show (2 ^ w - 1).testBit i = true
    rw [Nat.testBit_two_pow_sub_one]
    exact decide_eq_true hi
  · intro S hS
    rw [BitArray.val_inj]
    apply Nat.eq_of_testBit_eq
    intro j
    rw [BitArray.testBit_new]
    show _ = (2 ^ w - 1).testBit j
    rw [Nat.testBit_two_pow_sub_one]
    by_cases hj : j < w
    · rw [hS j hj, decide_eq_true hj]
      rfl
    · rw [decide_eq_false hj]
      rfl

/-- C8: every in-range bit of the default array is false, default equals new
of the empty sequence, and two arrays are equal exactly when their underlying
values are equal. -/
theorem spec_c8 (w : Nat) (_hw : w ∈ supportedWidths) :
    (∀ i, i < w → (BitArray.default w).get i = false) ∧
    BitArray.default w = BitArray.new w [] ∧
    ∀ a b : BitArray w, a = b ↔ a.val = b.val := by
  refine ⟨fun i _ => BitArray.get_default i, ?_, fun a b => BitArray.val_inj⟩
  unfold BitArray.new
  rw [List.take_nil]
  rfl

/-- C9: the rendering is the base-2 digit string of the underlying value,
most significant bit first with no forced leading zeroes, and the width-8
array built from the concrete example sequence renders as 11100001. -/
theorem spec_c9 :
    (∀ w, w ∈ supportedWidths → ∀ a : BitArray w,
      binVal a.display.data = a.val ∧
        (∀ c, c ∈ a.display.data → c = '0' ∨ c = '1') ∧
        (a.val ≠ 0 → a.display.data.head? = some '1')) ∧
    (BitArray.new 8 [true, false, false, false, false, true, true, true]).display
      = "11100001" := by
  constructor
  · intro w _ a
    exact BitArray.display_spec a
  · decide

/-- C10: feeding the full iterator output of an array back into the
constructor reproduces the array exactly. -/
theorem spec_c10 (w : Nat) (_hw : w ∈ supportedWidths) (a : BitArray w)
    (ha : a.val < 2 ^ w) : BitArray.new w a.iterList = a := by
  rw [BitArray.val_inj]
  apply Nat.eq_of_testBit_eq
  intro j
  rw [BitArray.testBit_new]
  by_cases hj : j < w
  · rw [decide_eq_true hj, Bool.true_and, BitArray.iterList_eq_map,
      List.getD_eq_getElem?_getD, List.getElem?_map, List.getElem?_range hj]
    show a.get j = a.val.testBit j
    rw [BitArray.get_eq_testBit, Nat.mod_eq_of_lt hj]
  · rw [decide_eq_false hj, Bool.false_and,
      BitArray.val_testBit_high a ha (by omega)]

/-- Witness for C1 at width 8 with a three-element input. -/
theorem spec_c1_inst :
    8 ∈ supportedWidths ∧ ([true, false, true] : List Bool).length ≤ 8 ∧
    (BitArray.new 8 [true, false, true]).iterList =
      [true, false, true] ++
        List.replicate (8 - ([true, false, true] : List Bool).length) false :=
  ⟨by decide, by decide, spec_c1 8 (by decide) [true, false, true] (by decide)⟩

/-- Witness for C2 at width 8 with a nine-element input. -/
theorem spec_c2_inst :
    8 ∈ supportedWidths ∧
    (BitArray.new 8 [true, true, false, true, true, true, false, false, true] =
        BitArray.new 8
          ([true, true, false, true, true, true, false, false, true].take 8) ∧
      BitArray.new 8 (List.replicate 129 true) = BitArray.all_one 8) :=
  ⟨by decide,
    spec_c2 8 (by decide) [true, true, false, true, true, true, false, false, true]⟩

/-- Witness for C3 at width 8, index 2, bit true. -/
theorem spec_c3_inst :
    8 ∈ supportedWidths ∧ (2 : Nat) < 8 ∧
    (((BitArray.new 8 [true, false, false, false, false, true, true, true]).set 2
        true).get 2 = true ∧
      ∀ j, j < 8 → j ≠ 2 →
        ((BitArray.new 8 [true, false, false, false, false, true, true, true]).set 2
            true).get j =
          (BitArray.new 8 [true, false, false, false, false, true, true, true]).get j) :=
  ⟨by decide, by decide,
    spec_c3 8 (by decide)
      (BitArray.new 8 [true, false, false, false, false, true, true, true]) 2
      (by decide) true⟩

/-- Witness for C4 at width 8 on the alternating array. -/
theorem spec_c4_inst :
    8 ∈ supportedWidths ∧
    (BitArray.new 8 [true, false, true, false, true, false, true, false]).val
      < 2 ^ 8 ∧
    ((∀ i,
        i ∈ (BitArray.new 8 [true, false, true, false, true, false, true, false]).onesList ↔
          (i < 8 ∧
            (BitArray.new 8 [true, false, true, false, true, false, true, false]).get i
              = true)) ∧
      (∀ i,
        i ∈ (BitArray.new 8 [true, false, true, false, true, false, true, false]).zeroesList ↔
          (i < 8 ∧
            (BitArray.new 8 [true, false, true, false, true, false, true, false]).get i
              = false)) ∧
      (∀ i,
        ¬ (i ∈ (BitArray.new 8 [true, false, true, false, true, false, true, false]).onesList ∧
          i ∈ (BitArray.new 8 [true, false, true, false, true, false, true, false]).zeroesList)) ∧
      (∀ i, i < 8 →
        i ∈ (BitArray.new 8 [true, false, true, false, true, false, true, false]).onesList ∨
          i ∈ (BitArray.new 8 [true, false, true, false, true, false, true, false]).zeroesList) ∧
      List.Sorted (fun x y => x < y)
        (BitArray.new 8 [true, false, true, false, true, false, true, false]).onesList ∧
      List.Sorted (fun x y => x < y)
        (BitArray.new 8 [true, false, true, false, true, false, true, false]).zeroesList ∧
      setAllTrue (BitArray.default 8)
          (BitArray.new 8 [true, false, true, false, true, false, true, false]).onesList =
        BitArray.new 8 [true, false, true, false, true, false, true, false]) :=
  ⟨by decide, by decide,
    spec_c4 8 (by decide)
      (BitArray.new 8 [true, false, true, false, true, false, true, false])
      (by decide)⟩

/-- Witness for C5 at width 8 on the example array. -/
theorem spec_c5_inst :
    8 ∈ supportedWidths ∧
    ((BitArray.new 8 [true, false, false, false, false, true, true, true]).iterList.length
        = 8 ∧
      ∀ k, k < 8 →
        (BitArray.new 8 [true, false, false, false, false, true, true, true]).iterList[k]? =
          some ((BitArray.new 8 [true, false, false, false, false, true, true, true]).get k)) :=
  ⟨by decide,
    spec_c5 8 (by decide)
      (BitArray.new 8 [true, false, false, false, false, true, true, true])⟩

/-- Witness for C6 at width 8, index 5. -/
theorem spec_c6_inst :
    8 ∈ supportedWidths ∧ (5 : Nat) < 8 ∧
    (one_at_index 8 5 = 2 ^ 5 ∧ one_at_index 8 5 < 2 ^ 8 ∧
      ∀ j, (one_at_index 8 5).testBit j = decide (j = 5)) :=
  ⟨by decide, by decide, spec_c6 8 (by decide) 5 (by decide)⟩

/-- Witness for C7 at width 8. -/
theorem spec_c7_inst :
    8 ∈ supportedWidths ∧
    ((∀ i, i < 8 → (BitArray.all_one 8).get i = true) ∧
      ∀ S : List Bool, (∀ j, j < 8 → S.getD j false = true) →
        BitArray.new 8 S = BitArray.all_one 8) :=
  ⟨by decide, spec_c7 8 (by decide)⟩

/-- Witness for C8 at width 8. -/
theorem spec_c8_inst :
    8 ∈ supportedWidths ∧
    ((∀ i, i < 8 → (BitArray.default 8).get i = false) ∧
      BitArray.default 8 = BitArray.new 8 [] ∧
      ∀ a b : BitArray 8, a = b ↔ a.val = b.val) :=
  ⟨by decide, spec_c8 8 (by decide)⟩

/-- Witness for C9 at width 8 on the example array. -/
theorem spec_c9_inst :
    8 ∈ supportedWidths ∧
    (binVal (BitArray.new 8 [true, false, false, false, false, true, true, true]).display.data =
        (BitArray.new 8 [true, false, false, false, false, true, true, true]).val ∧
      (∀ c,
        c ∈ (BitArray.new 8
            [true, false, false, false, false, true, true, true]).display.data →
          c = '0' ∨ c = '1') ∧
      ((BitArray.new 8 [true, false, false, false, false, true, true, true]).val ≠ 0 →
        (BitArray.new 8
            [true, false, false, false, false, true, true, true]).display.data.head? =
          some '1')) :=
  ⟨by decide,
    spec_c9.1 8 (by decide)
      (BitArray.new 8 [true, false, false, false, false, true, true, true])⟩

/-- Witness for C10 at width 8 on the example array. -/
theorem spec_c10_inst :
    8 ∈ supportedWidths ∧
    (BitArray.new 8 [true, false, false, false, false, true, true, true]).val < 2 ^ 8 ∧
    BitArray.new 8
        (BitArray.new 8 [true, false, false, false, false, true, true, true]).iterList =
      BitArray.new 8 [true, false, false, false, false, true, true, true] :=
  ⟨by decide, by decide,
    spec_c10 8 (by decide)
      (BitArray.new 8 [true, false, false, false, false, true, true, true])
      (by decide)⟩
